import Mathlib

/-!
Verification of the batch training loop `train_agent_batch`
(src/chainerrl/experiments/train_agent_batch.py).

The loop drives a vectorized environment of `numEnvs` slots in lock-step,
keeps per-slot episode bookkeeping (`episode_r`, `episode_idx`,
`episode_len`), archives completed-episode returns into a bounded deque
(`recent_returns`), advances a global step counter `t` by `numEnvs` per
batch transition while firing step hooks once per unit increment, asks an
optional evaluator whether to stop early on a success threshold, and saves
the agent with suffix `_finish` on normal exit or `_except` (followed by
closing the environments) when the body raises.

The embedding below is a shallow state machine.  External collaborators
(agent, environment, evaluator, hooks) are modelled by an `Oracle`: per
iteration they either return values or raise an exception of type `ε`.
Observable side effects (`save_agent`, `env.close()`,
`evaluator.env.close()`, hook invocations, `env.reset(mask)` calls) are
recorded in an event trace.  Rewards and scores are modelled by `Int`
(their numeric type is irrelevant to the control flow being verified);
logging (`logger.info`) has no effect on any state read by the loop and is
not recorded.
-/

namespace TrainAgentBatch

/-- Observable calls made by the training loop, in program order. -/
inductive Event where
  | saveAgent (step : Int) (suffix : String)
  | envClose
  | evalEnvClose
  | hookCall (hook : Nat) (step : Int)
  | resetCall (mask : List Bool)
  deriving DecidableEq

/-- The configuration parameters of `train_agent_batch` that affect control
flow: `num_envs`, `steps`, `step_offset`, `max_episode_len`,
`successful_score`, the number of registered step hooks, the
`return_window_size` of the deque, and whether an evaluator was passed. -/
structure LoopCfg where
  numEnvs : Nat
  steps : Int
  stepOffset : Int
  maxEpisodeLen : Option Nat
  successfulScore : Option Int
  numHooks : Nat
  returnWindowSize : Nat
  hasEvaluator : Bool

/-- Behaviour of the external collaborators, indexed by the batch-iteration
number `k` (and, for hooks, by the global step value).  `actExc k = some e`
means `agent.batch_act_and_train` raises `e` at iteration `k`;
`stepRes k` is `env.step`'s outcome (per-slot rewards and done flags, or an
exception); `observeExc` covers `agent.batch_observe_and_train`;
`hookExc i t` is the exception, if any, raised by hook `i` when called with
global step `t`.  `evalRan t ep` is the value returned by
`evaluator.evaluate_if_necessary(t, episodes)`, and `maxScore t ep` is
`evaluator.max_score` as read right after that call. -/
structure Oracle (ε : Type) (N : Nat) where
  actExc : Nat → Option ε
  stepRes : Nat → Except ε ((Fin N → Int) × (Fin N → Bool))
  observeExc : Nat → Option ε
  hookExc : Nat → Int → Option ε
  evalRan : Int → Nat → Bool
  maxScore : Int → Nat → Int

/-- The mutable state of the loop: global step `t`, the three per-slot
arrays, the `recent_returns` deque, and the trace of observable events. -/
structure LoopState (N : Nat) where
  t : Int
  episodeR : Fin N → Int
  episodeIdx : Fin N → Nat
  episodeLen : Fin N → Nat
  recentReturns : List Int
  events : List Event

/-- The caller-visible outcome of a run of `train_agent_batch`: the event
trace, the final value of `t`, the number of batch iterations entered, and
either normal return or the propagated exception. -/
structure RunResult (ε : Type) where
  events : List Event
  finalT : Int
  iters : Nat
  outcome : Except ε Unit

/-- `deque.append` with `maxlen`: append at the back, evicting from the
front when the capacity is exceeded. -/
def dequePush (maxlen : Nat) (q : List Int) (x : Int) : List Int :=
  let q2 := q ++ [x]
  if maxlen < q2.length then q2.drop (q2.length - maxlen) else q2

/-- `deque.extend`: push each element in order. -/
def dequeExtend (maxlen : Nat) (q : List Int) (xs : List Int) : List Int :=
  xs.foldl (dequePush maxlen) q

/-- `np.sum(episode_idx)`. -/
def sumIdx {N : Nat} (f : Fin N → Nat) : Nat :=
  ((List.finRange N).map f).sum

/-- `episode_len` after this iteration's `episode_len += 1`. -/
def lenAfter {N : Nat} (s : LoopState N) : Fin N → Nat :=
  fun i => s.episodeLen i + 1

/-- `episode_r` after this iteration's `episode_r += rs`. -/
def rAfter {N : Nat} (s : LoopState N) (rs : Fin N → Int) : Fin N → Int :=
  fun i => s.episodeR i + rs i

/-- The truncation mask: `resets = np.zeros(...)` when `max_episode_len is
None`, else `resets = (episode_len == max_episode_len)` (strict equality on
the already-incremented step count). -/
def resetsMask (maxLen : Option Nat) {N : Nat} (lenAf : Fin N → Nat) (i : Fin N) : Bool :=
  match maxLen with
  | none => false
  | some L => lenAf i == L

/-- `end = np.logical_or(resets, dones)`. -/
def endMask (maxLen : Option Nat) {N : Nat} (lenAf : Fin N → Nat) (dones : Fin N → Bool)
    (i : Fin N) : Bool :=
  resetsMask maxLen lenAf i || dones i

/-- `episode_r[end]`: the accumulated returns of the slots whose episode
ended this iteration, in slot order (the values handed to
`recent_returns.extend`). -/
def archivedList (maxLen : Option Nat) {N : Nat} (s : LoopState N)
    (rs : Fin N → Int) (dones : Fin N → Bool) : List Int :=
  ((List.finRange N).filter (fun i => endMask maxLen (lenAfter s) dones i)).map (rAfter s rs)

/-- One inner pass over the registered hooks at global step `t`:
`for hook in step_hooks: hook(env, agent, t)`. -/
def hookBlock (numHooks : Nat) (t : Int) : List Event :=
  (List.range numHooks).map (fun i => Event.hookCall i t)

/-- The hook events produced by `n` consecutive unit increments of the
step counter starting from `t`: step values `t+1, ..., t+n`, all hooks in
registration order at each value. -/
def unitsTrace (numHooks : Nat) (t : Int) : Nat → List Event
  | 0 => []
  | n + 1 => hookBlock numHooks (t + 1) ++ unitsTrace numHooks (t + 1) n

/-- Run the hooks of list `l` at step `t`, stopping at the first one that
raises.  Returns the extended event list, or the exception together with
the events of the hooks that did complete. -/
def runHookList {ε : Type} {N : Nat} (orc : Oracle ε N) (l : List Nat) (t : Int)
    (evs : List Event) : Except (ε × List Event) (List Event) :=
  match l with
  | [] => .ok evs
  | i :: rest =>
    match orc.hookExc i t with
    | some e => .error (e, evs)
    | none => runHookList orc rest t (evs ++ [Event.hookCall i t])

/-- `for _ in range(num_envs): t += 1; for hook in step_hooks: hook(...)`:
`n` unit increments from `t`, firing all hooks after each increment. -/
def runUnits {ε : Type} {N : Nat} (orc : Oracle ε N) (numHooks : Nat) :
    Nat → Int → List Event → Except (ε × Int × List Event) (Int × List Event)
  | 0, t, evs => .ok (t, evs)
  | n + 1, t, evs =>
    match runHookList orc (List.range numHooks) (t + 1) evs with
    | .error (e, evs2) => .error (e, t + 1, evs2)
    | .ok evs2 => runUnits orc numHooks n (t + 1) evs2

/-- The early-exit test evaluated after the hooks: `evaluator` is truthy,
`evaluator.evaluate_if_necessary(t=t, episodes=np.sum(episode_idx))`
returned `True`, `successful_score is not None`, and
`evaluator.max_score >= successful_score`. -/
def breakCond (cfg : LoopCfg) {ε : Type} (orc : Oracle ε cfg.numEnvs) (t : Int)
    (ep : Nat) : Bool :=
  cfg.hasEvaluator && orc.evalRan t ep &&
    (match cfg.successfulScore with
     | none => false
     | some sc => decide (sc ≤ orc.maxScore t ep))

/-- One body of `while t < steps`, covering lines 62-115 of the source:
agent action selection, `env.step`, reward/length accumulation, the
truncation mask, `agent.batch_observe_and_train`, episode finalization,
the masked mid-loop `env.reset(not_end)`, the per-unit step/hook loop, and
the evaluator check.  An exception at any of the four fallible call sites
aborts the body, returning the exception together with the state exactly
as mutated so far. -/
def iterBody (cfg : LoopCfg) {ε : Type} (orc : Oracle ε cfg.numEnvs)
    (s : LoopState cfg.numEnvs) (k : Nat) :
    Except (ε × LoopState cfg.numEnvs) (LoopState cfg.numEnvs × Bool) :=
  match orc.actExc k with
  | some e => .error (e, s)
  | none =>
    match orc.stepRes k with
    | .error e => .error (e, s)
    | .ok (rs, dones) =>
      let r1 := rAfter s rs
      let len1 := lenAfter s
      match orc.observeExc k with
      | some e => .error (e, { s with episodeR := r1, episodeLen := len1 })
      | none =>
        let endd := endMask cfg.maxEpisodeLen len1 dones
        let idx2 := fun i => s.episodeIdx i + (if endd i then 1 else 0)
        let recent2 := dequeExtend cfg.returnWindowSize s.recentReturns
          (archivedList cfg.maxEpisodeLen s rs dones)
        let r2 := fun i => if endd i then 0 else r1 i
        let len2 := fun i => if endd i then 0 else len1 i
        let evs2 := s.events ++ [Event.resetCall (List.ofFn (fun i => !(endd i)))]
        match runUnits orc cfg.numHooks cfg.numEnvs s.t evs2 with
        | .error (e, t2, evs3) =>
          .error (e, { t := t2, episodeR := r2, episodeIdx := idx2, episodeLen := len2,
                       recentReturns := recent2, events := evs3 })
        | .ok (t2, evs3) =>
          let s2 : LoopState cfg.numEnvs :=
            { t := t2, episodeR := r2, episodeIdx := idx2, episodeLen := len2,
              recentReturns := recent2, events := evs3 }
          .ok (s2, breakCond cfg orc t2 (sumIdx idx2))

/-- The events appended by the `except` handler: `save_agent(..., t, ...,
suffix='_except')`, then `env.close()`, then `evaluator.env.close()` when
an evaluator is present. -/
def exceptEvents (cfg : LoopCfg) (t : Int) : List Event :=
  [Event.saveAgent t "_except", Event.envClose] ++
    (if cfg.hasEvaluator then [Event.evalEnvClose] else [])

/-- The result of the `else` branch: `save_agent(..., t, ...,
suffix='_finish')` and normal return. -/
def finishResult {ε : Type} {N : Nat} (s : LoopState N) (iters : Nat) : RunResult ε :=
  { events := s.events ++ [Event.saveAgent s.t "_finish"], finalT := s.t,
    iters := iters, outcome := .ok () }

/-- The `while t < steps` loop with its surrounding try/except/else, run
with `fuel` as an upper bound on the number of iterations (`none` when the
bound is exhausted; every theorem below supplies sufficient fuel). -/
def runFrom (cfg : LoopCfg) {ε : Type} (orc : Oracle ε cfg.numEnvs) :
    Nat → LoopState cfg.numEnvs → Nat → Nat → Option (RunResult ε)
  | fuel, s, k, iters =>
    if s.t < cfg.steps then
      match fuel with
      | 0 => none
      | fuel' + 1 =>
        match iterBody cfg orc s k with
        | .error (e, s2) =>
          some { events := s2.events ++ exceptEvents cfg s2.t, finalT := s2.t,
                 iters := iters + 1, outcome := .error e }
        | .ok (s', brk) =>
          if brk then some (finishResult s' (iters + 1))
          else runFrom cfg orc fuel' s' (k + 1) (iters + 1)
    else some (finishResult s iters)

/-- The state at loop entry: `t = step_offset`, zeroed per-slot arrays, an
empty deque, and the initial unmasked `env.reset()`. -/
def initState (cfg : LoopCfg) : LoopState cfg.numEnvs :=
  { t := cfg.stepOffset
    episodeR := fun _ => 0
    episodeIdx := fun _ => 0
    episodeLen := fun _ => 0
    recentReturns := []
    events := [Event.resetCall (List.replicate cfg.numEnvs true)] }

/-- A full run of `train_agent_batch`. -/
def runTrain (cfg : LoopCfg) {ε : Type} (orc : Oracle ε cfg.numEnvs) (fuel : Nat) :
    Option (RunResult ε) :=
  runFrom cfg orc fuel (initState cfg) 0 0

/-- Recognizes `save_agent(..., suffix='_except')`. -/
def isExceptSave : Event → Bool
  | .saveAgent _ sfx => sfx == "_except"
  | _ => false

/-- Recognizes `save_agent(..., suffix='_finish')`. -/
def isFinishSave : Event → Bool
  | .saveAgent _ sfx => sfx == "_finish"
  | _ => false

/-- Recognizes `env.close()`. -/
def isEnvClose : Event → Bool
  | .envClose => true
  | _ => false

/-- Recognizes `evaluator.env.close()`. -/
def isEvalEnvClose : Event → Bool
  | .evalEnvClose => true
  | _ => false

/-- Recognizes a hook invocation. -/
def isHookEvent : Event → Bool
  | .hookCall _ _ => true
  | _ => false

/-- Events that the loop body itself emits (hook invocations and masked
resets) as opposed to the save/close events of the two exit handlers. -/
def Event.isPlain : Event → Bool
  | .hookCall _ _ => true
  | .resetCall _ => true
  | _ => false

/-- The subtrace of hook invocations. -/
def hookEvents (evs : List Event) : List Event :=
  evs.filter isHookEvent

/-- The step arguments received by hook number `i`, in call order. -/
def hookSteps (i : Nat) (evs : List Event) : List Int :=
  evs.filterMap (fun ev =>
    match ev with
    | .hookCall j u => if j = i then some u else none
    | _ => none)

/-- No collaborator call raises during the run. -/
def NoFail {ε : Type} {N : Nat} (orc : Oracle ε N) : Prop :=
  (∀ k, orc.actExc k = none) ∧
  (∀ k, ∃ rd, orc.stepRes k = .ok rd) ∧
  (∀ k, orc.observeExc k = none) ∧
  (∀ i t, orc.hookExc i t = none)

/-- The success-threshold early exit never fires. -/
def NoEarlyExit (cfg : LoopCfg) {ε : Type} (orc : Oracle ε cfg.numEnvs) : Prop :=
  ∀ t ep, breakCond cfg orc t ep = false

/-- Extract the payload of a successful `Except`. -/
def okPart {α β : Type} (x : Except α β) (dflt : β) : β :=
  match x with
  | .ok b => b
  | .error _ => dflt

/-- Placeholder run result used when extracting from an `Option`. -/
def dfltRes : RunResult Nat :=
  { events := [], finalT := 0, iters := 0, outcome := Except.ok () }

/-- Concrete configuration: one slot, budget 2, evaluator present. -/
def cfgA : LoopCfg :=
  { numEnvs := 1, steps := 2, stepOffset := 0, maxEpisodeLen := none,
    successfulScore := none, numHooks := 0, returnWindowSize := 100, hasEvaluator := true }

/-- Concrete collaborators whose `env.step` raises exception `7` at once. -/
def orcA : Oracle Nat cfgA.numEnvs :=
  { actExc := fun _ => none, stepRes := fun _ => .error 7, observeExc := fun _ => none,
    hookExc := fun _ _ => none, evalRan := fun _ _ => false, maxScore := fun _ _ => 0 }

/-- The run of `cfgA`/`orcA`: aborts in the first iteration. -/
def resA : RunResult Nat := (runTrain cfgA orcA 5).getD dfltRes

/-- Concrete configuration: one slot, budget 10, success threshold 5. -/
def cfgB : LoopCfg :=
  { numEnvs := 1, steps := 10, stepOffset := 0, maxEpisodeLen := none,
    successfulScore := some 5, numHooks := 0, returnWindowSize := 100, hasEvaluator := true }

/-- Concrete collaborators: never fail, evaluator always runs with score 7. -/
def orcB : Oracle Nat cfgB.numEnvs :=
  { actExc := fun _ => none, stepRes := fun _ => .ok (fun _ => 0, fun _ => false),
    observeExc := fun _ => none, hookExc := fun _ _ => none,
    evalRan := fun _ _ => true, maxScore := fun _ _ => 7 }

/-- The run of `cfgB`/`orcB`: stops early after one iteration. -/
def resB : RunResult Nat := (runTrain cfgB orcB 1).getD dfltRes

/-- Concrete configuration: two slots, budget 6, one hook, no evaluator. -/
def cfgC : LoopCfg :=
  { numEnvs := 2, steps := 6, stepOffset := 0, maxEpisodeLen := none,
    successfulScore := none, numHooks := 1, returnWindowSize := 100, hasEvaluator := false }

/-- Concrete collaborators: never fail, reward one per step, never done. -/
def orcC : Oracle Nat cfgC.numEnvs :=
  { actExc := fun _ => none, stepRes := fun _ => .ok (fun _ => 1, fun _ => false),
    observeExc := fun _ => none, hookExc := fun _ _ => none,
    evalRan := fun _ _ => false, maxScore := fun _ _ => 0 }

/-- The run of `cfgC`/`orcC`: three full iterations, normal finish. -/
def resC : RunResult Nat := (runTrain cfgC orcC 3).getD dfltRes

/-- The outcome of the first loop body of the `cfgC` run. -/
def pairC : LoopState cfgC.numEnvs × Bool :=
  okPart (iterBody cfgC orcC (initState cfgC) 0) (initState cfgC, false)

/-- The state after the first loop body of the `cfgC` run. -/
def sC' : LoopState cfgC.numEnvs := pairC.1

/-- The break flag after the first loop body of the `cfgC` run. -/
def brkC : Bool := pairC.2

/-- Concrete configuration: two slots but step budget only 1 (not a
multiple of `numEnvs`), one hook. -/
def cfgC4 : LoopCfg :=
  { numEnvs := 2, steps := 1, stepOffset := 0, maxEpisodeLen := none,
    successfulScore := none, numHooks := 1, returnWindowSize := 100, hasEvaluator := false }

/-- The run of `cfgC4`: a single iteration overshooting the budget. -/
def resC4 : RunResult Nat := (runTrain cfgC4 orcC 1).getD dfltRes

/-- Concrete configuration: two slots, `max_episode_len = 3`, window size 2. -/
def cfgD : LoopCfg :=
  { numEnvs := 2, steps := 100, stepOffset := 0, maxEpisodeLen := some 3,
    successfulScore := none, numHooks := 1, returnWindowSize := 2, hasEvaluator := false }

/-- Per-slot rewards delivered by `cfgD`'s environment. -/
def rsD : Fin cfgD.numEnvs → Int := fun i => if i.val = 0 then 3 else 4

/-- Per-slot done flags delivered by `cfgD`'s environment: slot 0 is done. -/
def donesD : Fin cfgD.numEnvs → Bool := fun i => decide (i.val = 0)

/-- Concrete collaborators for `cfgD`. -/
def orcD : Oracle Nat cfgD.numEnvs :=
  { actExc := fun _ => none, stepRes := fun _ => .ok (rsD, donesD),
    observeExc := fun _ => none, hookExc := fun _ _ => none,
    evalRan := fun _ _ => false, maxScore := fun _ _ => 0 }

/-- A mid-run state for `cfgD`: slot 0 at step count 1 (its done flag ends
it naturally), slot 1 at step count 2 (so the increment reaches
`max_episode_len = 3` and it truncates). -/
def sD : LoopState cfgD.numEnvs :=
  { t := 10
    episodeR := fun i => if i.val = 0 then 5 else 6
    episodeIdx := fun _ => 2
    episodeLen := fun i => if i.val = 0 then 1 else 2
    recentReturns := [9]
    events := [] }

/-- The outcome of one loop body from `sD`. -/
def pairD : LoopState cfgD.numEnvs × Bool := okPart (iterBody cfgD orcD sD 0) (sD, false)

/-- The post-iteration state from `sD`. -/
def sD' : LoopState cfgD.numEnvs := pairD.1

/-- The break flag of the iteration from `sD`. -/
def brkD : Bool := pairD.2

/-- Concrete configuration: two slots, budget 5 (odd, so not a multiple of
`numEnvs`), one hook. -/
def cfgE : LoopCfg :=
  { numEnvs := 2, steps := 5, stepOffset := 0, maxEpisodeLen := none,
    successfulScore := none, numHooks := 1, returnWindowSize := 100, hasEvaluator := false }

/-! ### Helper lemmas: the hook sub-loop -/

theorem runHookList_noFail {ε : Type} {N : Nat} (orc : Oracle ε N)
    (h : ∀ i t, orc.hookExc i t = none) :
    ∀ (l : List Nat) (t : Int) (evs : List Event),
      runHookList orc l t evs = .ok (evs ++ l.map (fun i => Event.hookCall i t)) := by
  intro l
  induction l with
  | nil => intro t evs; simp [runHookList]
  | cons i rest ih =>
    intro t evs
    simp [runHookList, h i t, ih]

theorem runHookList_ok {ε : Type} {N : Nat} (orc : Oracle ε N) :
    ∀ (l : List Nat) (t : Int) (evs evs' : List Event),
      runHookList orc l t evs = .ok evs' →
      evs' = evs ++ l.map (fun i => Event.hookCall i t) := by
  intro l
  induction l with
  | nil =>
    intro t evs evs' h
    simpa [runHookList] using h.symm
  | cons i rest ih =>
    intro t evs evs' h
    unfold runHookList at h
    cases hx : orc.hookExc i t with
    | some e => rw [hx] at h; simp at h
    | none =>
      rw [hx] at h
      have := ih t (evs ++ [Event.hookCall i t]) evs' h
      simp [this]

theorem runHookList_error {ε : Type} {N : Nat} (orc : Oracle ε N) :
    ∀ (l : List Nat) (t : Int) (evs : List Event) (e : ε) (evs' : List Event),
      runHookList orc l t evs = .error (e, evs') →
      ∃ new, evs' = evs ++ new ∧ ∀ ev ∈ new, Event.isPlain ev = true := by
  intro l
  induction l with
  | nil => intro t evs e evs' h; simp [runHookList] at h
  | cons i rest ih =>
    intro t evs e evs' h
    unfold runHookList at h
    cases hx : orc.hookExc i t with
    | some e2 =>
      rw [hx] at h
      simp at h
      exact ⟨[], by simp [h.2], by simp⟩
    | none =>
      rw [hx] at h
      obtain ⟨new, hnew, hp⟩ := ih t (evs ++ [Event.hookCall i t]) e evs' h
      refine ⟨[Event.hookCall i t] ++ new, ?_, ?_⟩
      · simp [hnew]
      · intro ev hev
        rcases List.mem_append.mp hev with h1 | h2
        · simp at h1; simp [h1, Event.isPlain]
        · exact hp ev h2

/-! ### Helper lemmas: the per-unit step/hook loop -/

theorem runUnits_noFail {ε : Type} {N : Nat} (orc : Oracle ε N) (H : Nat)
    (h : ∀ i t, orc.hookExc i t = none) :
    ∀ (n : Nat) (t : Int) (evs : List Event),
      runUnits orc H n t evs = .ok (t + n, evs ++ unitsTrace H t n) := by
  intro n
  induction n with
  | zero => intro t evs; simp [runUnits, unitsTrace]
  | succ n ih =>
    intro t evs
    rw [runUnits, runHookList_noFail orc h]
    dsimp only
    rw [ih (t + 1)]
    have harith : (t + 1) + (n : Int) = t + ((n : Nat) + 1 : Nat) := by push_cast; ring
    simp [unitsTrace, hookBlock, harith]

theorem runUnits_ok {ε : Type} {N : Nat} (orc : Oracle ε N) (H : Nat) :
    ∀ (n : Nat) (t : Int) (evs : List Event) (t2 : Int) (evs2 : List Event),
      runUnits orc H n t evs = .ok (t2, evs2) →
      t2 = t + n ∧ evs2 = evs ++ unitsTrace H t n := by
  intro n
  induction n with
  | zero =>
    intro t evs t2 evs2 h
    simp [runUnits] at h
    simp [unitsTrace, h.1.symm, h.2.symm]
  | succ n ih =>
    intro t evs t2 evs2 h
    rw [runUnits] at h
    cases hx : runHookList orc (List.range H) (t + 1) evs with
    | error p => rw [hx] at h; simp at h
    | ok evs' =>
      rw [hx] at h
      obtain ⟨ht, hev⟩ := ih (t + 1) evs' t2 evs2 h
      have hevs' := runHookList_ok orc (List.range H) (t + 1) evs evs' hx
      constructor
      · rw [ht]; push_cast; ring
      · rw [hev, hevs']
        simp [unitsTrace, hookBlock]

theorem runUnits_error {ε : Type} {N : Nat} (orc : Oracle ε N) (H : Nat) :
    ∀ (n : Nat) (t : Int) (evs : List Event) (e : ε) (t2 : Int) (evs2 : List Event),
      runUnits orc H n t evs = .error (e, t2, evs2) →
      ∃ new, evs2 = evs ++ new ∧ ∀ ev ∈ new, Event.isPlain ev = true := by
  intro n
  induction n with
  | zero => intro t evs e t2 evs2 h; simp [runUnits] at h
  | succ n ih =>
    intro t evs e t2 evs2 h
    rw [runUnits] at h
    cases hx : runHookList orc (List.range H) (t + 1) evs with
    | error p =>
      rw [hx] at h
      obtain ⟨e2, evs'⟩ := p
      simp at h
      obtain ⟨new, hnew, hp⟩ := runHookList_error orc (List.range H) (t + 1) evs e2 evs' hx
      exact ⟨new, by rw [← h.2.2, hnew], hp⟩
    | ok evs' =>
      rw [hx] at h
      obtain ⟨new, hnew, hp⟩ := ih (t + 1) evs' e t2 evs2 h
      have hevs' := runHookList_ok orc (List.range H) (t + 1) evs evs' hx
      refine ⟨(List.range H).map (fun i => Event.hookCall i (t + 1)) ++ new, ?_, ?_⟩
      · rw [hnew, hevs']; simp
      · intro ev hev
        rcases List.mem_append.mp hev with h1 | h2
        · obtain ⟨j, _, hj⟩ := List.mem_map.mp h1
          rw [← hj]; rfl
        · exact hp ev h2

/-! ### Helper lemmas: the hook trace -/

theorem unitsTrace_add (H : Nat) :
    ∀ (a b : Nat) (t : Int),
      unitsTrace H t (a + b) = unitsTrace H t a ++ unitsTrace H (t + a) b := by
  intro a
  induction a with
  | zero => intro b t; simp [unitsTrace]
  | succ a ih =>
    intro b t
    have h1 : a + 1 + b = (a + b) + 1 := by omega
    rw [h1]
    show hookBlock H (t + 1) ++ unitsTrace H (t + 1) (a + b) =
      (hookBlock H (t + 1) ++ unitsTrace H (t + 1) a) ++ unitsTrace H (t + (a + 1 : Nat)) b
    have h2 : (t + 1) + (a : Int) = t + ((a : Nat) + 1 : Nat) := by push_cast; ring
    rw [ih b (t + 1), h2]
    simp

theorem unitsTrace_plain (H : Nat) :
    ∀ (n : Nat) (t : Int), ∀ ev ∈ unitsTrace H t n, Event.isPlain ev = true := by
  intro n
  induction n with
  | zero => intro t ev hev; simp [unitsTrace] at hev
  | succ n ih =>
    intro t ev hev
    rcases List.mem_append.mp hev with h1 | h2
    · obtain ⟨j, _, hj⟩ := List.mem_map.mp h1
      rw [← hj]; rfl
    · exact ih (t + 1) ev h2

theorem unitsTrace_hooks (H : Nat) :
    ∀ (n : Nat) (t : Int), ∀ ev ∈ unitsTrace H t n, isHookEvent ev = true := by
  intro n
  induction n with
  | zero => intro t ev hev; simp [unitsTrace] at hev
  | succ n ih =>
    intro t ev hev
    rcases List.mem_append.mp hev with h1 | h2
    · obtain ⟨j, _, hj⟩ := List.mem_map.mp h1
      rw [← hj]; rfl
    · exact ih (t + 1) ev h2

theorem hookEvents_unitsTrace (H : Nat) (n : Nat) (t : Int) :
    hookEvents (unitsTrace H t n) = unitsTrace H t n :=
  List.filter_eq_self.mpr (unitsTrace_hooks H n t)

/-! ### Helper lemmas: one loop body -/

theorem hookEvents_append (a b : List Event) :
    hookEvents (a ++ b) = hookEvents a ++ hookEvents b := by
  simp [hookEvents]

theorem iterBody_ok_inv {cfg : LoopCfg} {ε : Type} (orc : Oracle ε cfg.numEnvs)
    (s : LoopState cfg.numEnvs) (k : Nat) (rs : Fin cfg.numEnvs → Int)
    (dones : Fin cfg.numEnvs → Bool) (hstep : orc.stepRes k = .ok (rs, dones))
    (s' : LoopState cfg.numEnvs) (brk : Bool)
    (hbody : iterBody cfg orc s k = .ok (s', brk)) :
    s'.t = s.t + cfg.numEnvs ∧
    s'.episodeR = (fun i =>
      if endMask cfg.maxEpisodeLen (lenAfter s) dones i then 0 else rAfter s rs i) ∧
    s'.episodeIdx = (fun i =>
      s.episodeIdx i + (if endMask cfg.maxEpisodeLen (lenAfter s) dones i then 1 else 0)) ∧
    s'.episodeLen = (fun i =>
      if endMask cfg.maxEpisodeLen (lenAfter s) dones i then 0 else lenAfter s i) ∧
    s'.recentReturns = dequeExtend cfg.returnWindowSize s.recentReturns
      (archivedList cfg.maxEpisodeLen s rs dones) ∧
    s'.events = s.events ++
      [Event.resetCall (List.ofFn (fun i => !(endMask cfg.maxEpisodeLen (lenAfter s) dones i)))] ++
      unitsTrace cfg.numHooks s.t cfg.numEnvs ∧
    brk = breakCond cfg orc s'.t (sumIdx s'.episodeIdx) := by
  cases hact : orc.actExc k with
  | some e => simp [iterBody, hact] at hbody
  | none =>
    cases hobs : orc.observeExc k with
    | some e => simp [iterBody, hact, hstep, hobs] at hbody
    | none =>
      cases hru : runUnits orc cfg.numHooks cfg.numEnvs s.t
          (s.events ++ [Event.resetCall
            (List.ofFn (fun i => !(endMask cfg.maxEpisodeLen (lenAfter s) dones i)))]) with
      | error p =>
        obtain ⟨e, t2, evs3⟩ := p
        simp [iterBody, hact, hstep, hobs, rAfter, lenAfter, hru] at hbody
      | ok p =>
        obtain ⟨t2, evs3⟩ := p
        obtain ⟨ht2, hevs3⟩ := runUnits_ok orc cfg.numHooks cfg.numEnvs s.t _ t2 evs3 hru
        simp only [iterBody, hact, hstep, hobs, hru, Except.ok.injEq, Prod.mk.injEq] at hbody
        obtain ⟨hs', hbrk⟩ := hbody
        subst hs'
        subst hbrk
        exact ⟨ht2, rfl, rfl, rfl, rfl, hevs3, rfl⟩

theorem iterBody_noFail {cfg : LoopCfg} {ε : Type} (orc : Oracle ε cfg.numEnvs)
    (hNF : NoFail orc) (s : LoopState cfg.numEnvs) (k : Nat) :
    ∃ s' brk, iterBody cfg orc s k = .ok (s', brk) ∧
      s'.t = s.t + cfg.numEnvs ∧
      hookEvents s'.events = hookEvents s.events ++ unitsTrace cfg.numHooks s.t cfg.numEnvs ∧
      brk = breakCond cfg orc s'.t (sumIdx s'.episodeIdx) := by
  obtain ⟨hact, hstep, hobs, hhook⟩ := hNF
  obtain ⟨⟨rs, dones⟩, hst⟩ := hstep k
  have hrun := runUnits_noFail orc cfg.numHooks hhook cfg.numEnvs s.t
    (s.events ++ [Event.resetCall
      (List.ofFn (fun i => !(endMask cfg.maxEpisodeLen (lenAfter s) dones i)))])
  cases hbody : iterBody cfg orc s k with
  | error p =>
    obtain ⟨e, s2⟩ := p
    simp only [iterBody, hact k, hst, hobs k, hrun] at hbody
    exact Except.noConfusion hbody
  | ok p =>
    obtain ⟨s', brk⟩ := p
    obtain ⟨ht, hr, hidx, hlen, hrec, hev, hbrk⟩ :=
      iterBody_ok_inv orc s k rs dones hst s' brk hbody
    refine ⟨s', brk, rfl, ht, ?_, hbrk⟩
    rw [hev, hookEvents_append, hookEvents_append, hookEvents_unitsTrace]
    simp [hookEvents, isHookEvent]

theorem iterBody_error_events {cfg : LoopCfg} {ε : Type} (orc : Oracle ε cfg.numEnvs)
    (s : LoopState cfg.numEnvs) (k : Nat) (e : ε) (s2 : LoopState cfg.numEnvs)
    (hbody : iterBody cfg orc s k = .error (e, s2)) :
    ∃ new, s2.events = s.events ++ new ∧ ∀ ev ∈ new, Event.isPlain ev = true := by
  cases hact : orc.actExc k with
  | some e2 =>
    simp [iterBody, hact] at hbody
    exact ⟨[], by simp [← hbody.2], by simp⟩
  | none =>
    cases hst : orc.stepRes k with
    | error e2 =>
      simp [iterBody, hact, hst] at hbody
      exact ⟨[], by simp [← hbody.2], by simp⟩
    | ok rd =>
      obtain ⟨rs, dones⟩ := rd
      cases hobs : orc.observeExc k with
      | some e2 =>
        simp [iterBody, hact, hst, hobs] at hbody
        exact ⟨[], by simp [← hbody.2], by simp⟩
      | none =>
        cases hru : runUnits orc cfg.numHooks cfg.numEnvs s.t
            (s.events ++ [Event.resetCall
              (List.ofFn (fun i => !(endMask cfg.maxEpisodeLen (lenAfter s) dones i)))]) with
        | error p =>
          obtain ⟨e2, t2, evs3⟩ := p
          simp only [iterBody, hact, hst, hobs, rAfter, lenAfter, hru] at hbody
          obtain ⟨new, hnew, hp⟩ := runUnits_error orc cfg.numHooks cfg.numEnvs s.t _ e2 t2 evs3 hru
          obtain ⟨-, hs2⟩ := Prod.mk.injEq .. ▸ (Except.error.injEq .. ▸ hbody)
          refine ⟨Event.resetCall
            (List.ofFn (fun i => !(endMask cfg.maxEpisodeLen (lenAfter s) dones i))) :: new, ?_, ?_⟩
          · rw [← hs2]
            show evs3 = _
            rw [hnew]
            simp
          · intro ev hev
            rcases List.mem_cons.mp hev with h1 | h2
            · rw [h1]; rfl
            · exact hp ev h2
        | ok p =>
          obtain ⟨t2, evs3⟩ := p
          simp [iterBody, hact, hst, hobs, rAfter, lenAfter, hru] at hbody

theorem iterBody_ok_events {cfg : LoopCfg} {ε : Type} (orc : Oracle ε cfg.numEnvs)
    (s : LoopState cfg.numEnvs) (k : Nat) (s' : LoopState cfg.numEnvs) (brk : Bool)
    (hbody : iterBody cfg orc s k = .ok (s', brk)) :
    ∃ new, s'.events = s.events ++ new ∧ ∀ ev ∈ new, Event.isPlain ev = true := by
  cases hact : orc.actExc k with
  | some e => simp [iterBody, hact] at hbody
  | none =>
    cases hst : orc.stepRes k with
    | error e => simp [iterBody, hact, hst] at hbody
    | ok rd =>
      obtain ⟨rs, dones⟩ := rd
      cases hobs : orc.observeExc k with
      | some e => simp [iterBody, hact, hst, hobs] at hbody
      | none =>
        obtain ⟨ht, hr, hidx, hlen, hrec, hev, hbrk⟩ :=
          iterBody_ok_inv orc s k rs dones hst s' brk hbody
        refine ⟨Event.resetCall
          (List.ofFn (fun i => !(endMask cfg.maxEpisodeLen (lenAfter s) dones i))) ::
            unitsTrace cfg.numHooks s.t cfg.numEnvs, ?_, ?_⟩
        · rw [hev]; simp
        · intro ev hev2
          rcases List.mem_cons.mp hev2 with h1 | h2
          · rw [h1]; rfl
          · exact unitsTrace_plain cfg.numHooks cfg.numEnvs s.t ev h2

/-! ### Helper lemmas: event counting -/

theorem plain_not_special {ev : Event} (h : Event.isPlain ev = true) :
    isExceptSave ev = false ∧ isFinishSave ev = false ∧
    isEnvClose ev = false ∧ isEvalEnvClose ev = false := by
  cases ev <;>
    simp_all [Event.isPlain, isExceptSave, isFinishSave, isEnvClose, isEvalEnvClose]

theorem countP_zero_of_all (p : Event → Bool) (evs : List Event)
    (h : ∀ ev ∈ evs, p ev = false) : evs.countP p = 0 := by
  rw [List.countP_eq_zero]
  intro a ha
  simp [h a ha]

/-! ### Helper lemma: the shape of every completed run -/

theorem runFrom_shape {cfg : LoopCfg} {ε : Type} (orc : Oracle ε cfg.numEnvs) :
    ∀ (fuel : Nat) (s : LoopState cfg.numEnvs) (k iters : Nat) (res : RunResult ε),
      runFrom cfg orc fuel s k iters = some res →
      ∃ mid, (∀ ev ∈ mid, Event.isPlain ev = true) ∧
        ((res.outcome = .ok () ∧
          res.events = s.events ++ mid ++ [Event.saveAgent res.finalT "_finish"]) ∨
         (∃ e k2 s1 s2, res.outcome = .error e ∧ iterBody cfg orc s1 k2 = .error (e, s2) ∧
           res.finalT = s2.t ∧
           res.events = s.events ++ mid ++ exceptEvents cfg res.finalT)) := by
  intro fuel
  induction fuel with
  | zero =>
    intro s k iters res hrun
    unfold runFrom at hrun
    by_cases h : s.t < cfg.steps
    · rw [if_pos h] at hrun; simp at hrun
    · rw [if_neg h] at hrun
      obtain rfl : finishResult s iters = res := by simpa using hrun
      exact ⟨[], by simp, Or.inl ⟨rfl, by simp [finishResult]⟩⟩
  | succ fuel ih =>
    intro s k iters res hrun
    unfold runFrom at hrun
    by_cases h : s.t < cfg.steps
    · rw [if_pos h] at hrun
      cases hbody : iterBody cfg orc s k with
      | error p =>
        obtain ⟨e, s2⟩ := p
        rw [hbody] at hrun
        obtain rfl : _ = res := by simpa using hrun
        obtain ⟨new, hnew, hp⟩ := iterBody_error_events orc s k e s2 hbody
        exact ⟨new, hp, Or.inr ⟨e, k, s, s2, rfl, hbody, rfl, by simp [hnew]⟩⟩
      | ok p =>
        obtain ⟨s', brk⟩ := p
        rw [hbody] at hrun
        obtain ⟨new, hnew, hp⟩ := iterBody_ok_events orc s k s' brk hbody
        cases brk with
        | true =>
          obtain rfl : finishResult s' (iters + 1) = res := by simpa using hrun
          exact ⟨new, hp, Or.inl ⟨rfl, by simp [finishResult, hnew]⟩⟩
        | false =>
          simp only [if_neg Bool.false_ne_true] at hrun
          obtain ⟨mid, hmid, hcase⟩ := ih s' (k + 1) (iters + 1) res hrun
          refine ⟨new ++ mid, ?_, ?_⟩
          · intro ev hev
            rcases List.mem_append.mp hev with h1 | h2
            · exact hp ev h1
            · exact hmid ev h2
          · rcases hcase with ⟨hok, hev⟩ | ⟨e, k2, s1, s2, hout, hb, hft, hev⟩
            · exact Or.inl ⟨hok, by rw [hev, hnew]; simp⟩
            · exact Or.inr ⟨e, k2, s1, s2, hout, hb, hft, by rw [hev, hnew]; simp⟩
    · rw [if_neg h] at hrun
      obtain rfl : finishResult s iters = res := by simpa using hrun
      exact ⟨[], by simp, Or.inl ⟨rfl, by simp [finishResult]⟩⟩

/-! ### Helper lemmas: complete no-failure runs -/

theorem runFrom_exit {cfg : LoopCfg} {ε : Type} (orc : Oracle ε cfg.numEnvs)
    (fuel : Nat) (s : LoopState cfg.numEnvs) (k iters : Nat) (h : ¬ s.t < cfg.steps) :
    runFrom cfg orc fuel s k iters = some (finishResult s iters) := by
  cases fuel <;> (unfold runFrom; rw [if_neg h])

theorem hookEvents_finish (s : LoopState N) (iters : Nat) {ε : Type} :
    hookEvents (finishResult (ε := ε) s iters).events = hookEvents s.events := by
  show hookEvents (s.events ++ [Event.saveAgent s.t _]) = _
  rw [hookEvents_append]
  simp [hookEvents, isHookEvent]

theorem run_noFail_exact {cfg : LoopCfg} {ε : Type} (orc : Oracle ε cfg.numEnvs)
    (hNF : NoFail orc) (hNE : NoEarlyExit cfg orc) :
    ∀ (m fuel : Nat) (s : LoopState cfg.numEnvs) (k iters : Nat), m ≤ fuel →
      cfg.steps ≤ s.t + ((m * cfg.numEnvs : Nat) : Int) →
      (∀ j : Nat, j < m → s.t + ((j * cfg.numEnvs : Nat) : Int) < cfg.steps) →
      ∃ res, runFrom cfg orc fuel s k iters = some res ∧ res.outcome = .ok () ∧
        res.iters = iters + m ∧
        res.finalT = s.t + ((m * cfg.numEnvs : Nat) : Int) ∧
        hookEvents res.events = hookEvents s.events ++
          unitsTrace cfg.numHooks s.t (m * cfg.numEnvs) := by
  intro m
  induction m with
  | zero =>
    intro fuel s k iters _ hub _
    have hnl : ¬ s.t < cfg.steps := by push_cast at hub; omega
    refine ⟨finishResult s iters, runFrom_exit orc fuel s k iters hnl, rfl, rfl, ?_, ?_⟩
    · show s.t = _
      push_cast
      ring
    · rw [hookEvents_finish]
      simp [unitsTrace]
  | succ m ih =>
    intro fuel s k iters hfuel hub hlt
    have hmul : (((m + 1) * cfg.numEnvs : Nat) : Int) =
        ((m * cfg.numEnvs : Nat) : Int) + (cfg.numEnvs : Int) := by push_cast; ring
    have hlt0 : s.t < cfg.steps := by
      have h0 := hlt 0 (Nat.succ_pos m)
      simpa using h0
    obtain ⟨fuel', rfl⟩ : ∃ f, fuel = f + 1 := ⟨fuel - 1, by omega⟩
    obtain ⟨s', brk, hbody, ht', hhe, hbrk⟩ := iterBody_noFail orc hNF s k
    have hbrkf : brk = false := by rw [hbrk]; exact hNE _ _
    subst hbrkf
    have hub' : cfg.steps ≤ s'.t + ((m * cfg.numEnvs : Nat) : Int) := by
      rw [ht']
      rw [hmul] at hub
      linarith
    have hlt' : ∀ j : Nat, j < m → s'.t + ((j * cfg.numEnvs : Nat) : Int) < cfg.steps := by
      intro j hj
      have hj1 := hlt (j + 1) (by omega)
      have hjm : (((j + 1) * cfg.numEnvs : Nat) : Int) =
          ((j * cfg.numEnvs : Nat) : Int) + (cfg.numEnvs : Int) := by push_cast; ring
      rw [hjm] at hj1
      rw [ht']
      linarith
    obtain ⟨res, hrun, hok, hit, hft, hhooks⟩ := ih fuel' s' (k + 1) (iters + 1) (by omega) hub' hlt'
    refine ⟨res, ?_, hok, ?_, ?_, ?_⟩
    · unfold runFrom
      rw [if_pos hlt0, hbody]
      simpa using hrun
    · rw [hit]; omega
    · rw [hft, ht', hmul]; ring
    · rw [ht'] at hhooks
      rw [hhooks, hhe]
      have hsum : (m + 1) * cfg.numEnvs = cfg.numEnvs + m * cfg.numEnvs := by ring
      rw [hsum, unitsTrace_add cfg.numHooks cfg.numEnvs (m * cfg.numEnvs) s.t]
      simp [List.append_assoc]

/-! ### Helper lemmas: the hook step arguments -/

theorem hookSteps_append (i : Nat) (a b : List Event) :
    hookSteps i (a ++ b) = hookSteps i a ++ hookSteps i b := by
  simp [hookSteps, List.filterMap_append]

theorem hookSteps_hookEvents (i : Nat) (evs : List Event) :
    hookSteps i (hookEvents evs) = hookSteps i evs := by
  induction evs with
  | nil => rfl
  | cons ev rest ih =>
    cases ev with
    | hookCall j u =>
      by_cases hj : j = i <;>
        simp [hookSteps, hookEvents, isHookEvent, List.filter_cons, List.filterMap_cons, hj] <;>
        simpa [hookSteps, hookEvents] using ih
    | saveAgent a b =>
      simpa [hookSteps, hookEvents, isHookEvent, List.filter_cons, List.filterMap_cons] using ih
    | envClose =>
      simpa [hookSteps, hookEvents, isHookEvent, List.filter_cons, List.filterMap_cons] using ih
    | evalEnvClose =>
      simpa [hookSteps, hookEvents, isHookEvent, List.filter_cons, List.filterMap_cons] using ih
    | resetCall mk =>
      simpa [hookSteps, hookEvents, isHookEvent, List.filter_cons, List.filterMap_cons] using ih

theorem range_pick {α : Type} (c : α) :
    ∀ (H i : Nat), i < H →
      (List.range H).filterMap (fun j => if j = i then some c else none) = [c] := by
  intro H
  induction H with
  | zero => intro i hi; omega
  | succ H ih =>
    intro i hi
    rw [List.range_succ, List.filterMap_append]
    by_cases h : i < H
    · rw [ih i h]
      have hne : ¬ (H = i) := by omega
      simp [hne]
    · have hiH : i = H := by omega
      subst hiH
      have h0 : (List.range i).filterMap (fun j => if j = i then some c else none) = [] := by
        rw [List.filterMap_eq_nil_iff]
        intro a ha
        have : a < i := List.mem_range.mp ha
        simp [show a ≠ i by omega]
      rw [h0]
      simp

theorem hookSteps_hookBlock (H i : Nat) (hi : i < H) (t : Int) :
    hookSteps i (hookBlock H t) = [t] := by
  show ((List.range H).map (fun j => Event.hookCall j t)).filterMap _ = [t]
  rw [List.filterMap_map]
  exact range_pick t H i hi

theorem hookSteps_unitsTrace (H i : Nat) (hi : i < H) :
    ∀ (n : Nat) (t : Int),
      hookSteps i (unitsTrace H t n) = (List.range n).map (fun (j : Nat) => t + (j : Int) + 1) := by
  intro n
  induction n with
  | zero => intro t; simp [unitsTrace, hookSteps]
  | succ n ih =>
    intro t
    show hookSteps i (hookBlock H (t + 1) ++ unitsTrace H (t + 1) n) = _
    rw [hookSteps_append, hookSteps_hookBlock H i hi, ih (t + 1)]
    rw [List.range_succ_eq_map, List.map_cons, List.map_map]
    refine List.cons_eq_cons.mpr ⟨by push_cast; ring, ?_⟩
    apply List.map_congr_left
    intro j _
    show (t + 1) + (j : Int) + 1 = t + ((j + 1 : Nat) : Int) + 1
    push_cast
    ring

theorem hookCall_mem_unitsTrace (H i : Nat) (hi : i < H) :
    ∀ (n : Nat) (t : Int), 1 ≤ n → Event.hookCall i (t + (n : Int)) ∈ unitsTrace H t n := by
  intro n
  induction n with
  | zero => intro t h; omega
  | succ n ih =>
    intro t _
    by_cases hn : 1 ≤ n
    · apply List.mem_append.mpr
      right
      have hmem := ih (t + 1) hn
      have harith : (t + 1) + (n : Int) = t + (((n : Nat) + 1 : Nat) : Int) := by push_cast; ring
      rw [harith] at hmem
      exact hmem
    · have hn0 : n = 0 := by omega
      subst hn0
      apply List.mem_append.mpr
      left
      have harith : t + (((0 : Nat) + 1 : Nat) : Int) = t + 1 := by push_cast; ring
      rw [harith]
      exact List.mem_map.mpr ⟨i, List.mem_range.mpr hi, rfl⟩

theorem pairwise_lt_shift (t : Int) (n : Nat) :
    List.Pairwise (· < ·) ((List.range n).map (fun (j : Nat) => t + (j : Int) + 1)) := by
  rw [List.pairwise_map]
  refine (List.pairwise_lt_range n).imp ?_
  intro a b hab
  have hab2 : (a : Int) < (b : Int) := by exact_mod_cast hab
  linarith

/-! ### Helper lemma: rounding the step budget up to a multiple of numEnvs -/

theorem ceilDiv_facts (S N : Nat) (hN : 1 ≤ N) (hS : 1 ≤ S) :
    1 ≤ (S + N - 1) / N ∧ S ≤ ((S + N - 1) / N) * N ∧ ((S + N - 1) / N) * N < S + N := by
  have hdm := Nat.div_add_mod (S + N - 1) N
  have hrlt : (S + N - 1) % N < N := Nat.mod_lt _ (by omega)
  set q := (S + N - 1) / N with hq
  set r := (S + N - 1) % N with hr
  have hqN : q * N = N * q := Nat.mul_comm q N
  rcases Nat.eq_zero_or_pos q with h0 | h1
  · exfalso
    rw [h0, Nat.mul_zero] at hdm
    omega
  · refine ⟨h1, ?_, ?_⟩
    · rw [hqN]
      set X := N * q with hX
      omega
    · rw [hqN]
      set X := N * q with hX
      omega

/-! ### Helper lemmas: deque bounds and the recent-returns window -/

theorem dequePush_length_le (W : Nat) (q : List Int) (x : Int) (h : q.length ≤ W) :
    (dequePush W q x).length ≤ W := by
  simp only [dequePush]
  by_cases hc : W < (q ++ [x]).length
  · rw [if_pos hc, List.length_drop]
    omega
  · rw [if_neg hc]
    simp at hc ⊢
    omega

theorem dequeExtend_length_le (W : Nat) :
    ∀ (xs q : List Int), q.length ≤ W → (dequeExtend W q xs).length ≤ W := by
  intro xs
  induction xs with
  | nil => intro q h; exact h
  | cons x xs ih => intro q h; exact ih (dequePush W q x) (dequePush_length_le W q x h)

theorem dequePush_full (W : Nat) (q : List Int) (x : Int) (hq : q.length = W)
    (hW : 1 ≤ W) : dequePush W q x = q.tail ++ [x] := by
  simp only [dequePush]
  have hc : W < (q ++ [x]).length := by simp [hq]
  rw [if_pos hc]
  have h1 : (q ++ [x]).length - W = 1 := by simp [hq]
  rw [h1, List.drop_append_of_le_length (by omega), List.drop_one]

theorem iterBody_recent_ok {cfg : LoopCfg} {ε : Type} (orc : Oracle ε cfg.numEnvs)
    (s : LoopState cfg.numEnvs) (k : Nat) (s' : LoopState cfg.numEnvs) (brk : Bool)
    (hbody : iterBody cfg orc s k = .ok (s', brk)) :
    ∃ xs, s'.recentReturns = dequeExtend cfg.returnWindowSize s.recentReturns xs := by
  cases hact : orc.actExc k with
  | some e => simp [iterBody, hact] at hbody
  | none =>
    cases hst : orc.stepRes k with
    | error e => simp [iterBody, hact, hst] at hbody
    | ok rd =>
      obtain ⟨rs, dones⟩ := rd
      obtain ⟨-, -, -, -, hrec, -, -⟩ := iterBody_ok_inv orc s k rs dones hst s' brk hbody
      exact ⟨_, hrec⟩

theorem iterBody_recent_error {cfg : LoopCfg} {ε : Type} (orc : Oracle ε cfg.numEnvs)
    (s : LoopState cfg.numEnvs) (k : Nat) (e : ε) (s2 : LoopState cfg.numEnvs)
    (hbody : iterBody cfg orc s k = .error (e, s2)) :
    s2.recentReturns = s.recentReturns ∨
    ∃ xs, s2.recentReturns = dequeExtend cfg.returnWindowSize s.recentReturns xs := by
  cases hact : orc.actExc k with
  | some e2 =>
    simp [iterBody, hact] at hbody
    exact Or.inl (by rw [← hbody.2])
  | none =>
    cases hst : orc.stepRes k with
    | error e2 =>
      simp [iterBody, hact, hst] at hbody
      exact Or.inl (by rw [← hbody.2])
    | ok rd =>
      obtain ⟨rs, dones⟩ := rd
      cases hobs : orc.observeExc k with
      | some e2 =>
        simp [iterBody, hact, hst, hobs] at hbody
        exact Or.inl (by rw [← hbody.2])
      | none =>
        cases hru : runUnits orc cfg.numHooks cfg.numEnvs s.t
            (s.events ++ [Event.resetCall
              (List.ofFn (fun i => !(endMask cfg.maxEpisodeLen (lenAfter s) dones i)))]) with
        | error p =>
          obtain ⟨e2, t2, evs3⟩ := p
          simp only [iterBody, hact, hst, hobs, rAfter, lenAfter, hru,
            Except.error.injEq, Prod.mk.injEq] at hbody
          exact Or.inr ⟨archivedList cfg.maxEpisodeLen s rs dones, by rw [← hbody.2]⟩
        | ok p =>
          obtain ⟨t2, evs3⟩ := p
          simp [iterBody, hact, hst, hobs, rAfter, lenAfter, hru] at hbody

/-! ### Helper lemmas: counting save/close events -/

theorem beq_except_finish : ("_except" == "_finish") = false := by decide

theorem beq_finish_except : ("_finish" == "_except") = false := by decide

theorem initState_event_counts (cfg : LoopCfg) :
    (initState cfg).events.countP isExceptSave = 0 ∧
    (initState cfg).events.countP isFinishSave = 0 ∧
    (initState cfg).events.countP isEnvClose = 0 ∧
    (initState cfg).events.countP isEvalEnvClose = 0 := by
  simp [initState, isExceptSave, isFinishSave, isEnvClose, isEvalEnvClose,
    List.countP_cons, List.countP_nil]

theorem exceptEvents_counts (cfg : LoopCfg) (t : Int) :
    (exceptEvents cfg t).countP isExceptSave = 1 ∧
    (exceptEvents cfg t).countP isEnvClose = 1 ∧
    (exceptEvents cfg t).countP isEvalEnvClose = (if cfg.hasEvaluator then 1 else 0) ∧
    (exceptEvents cfg t).countP isFinishSave = 0 ∧
    Event.saveAgent t "_except" ∈ exceptEvents cfg t := by
  cases h : cfg.hasEvaluator <;>
    simp [exceptEvents, h, isExceptSave, isEnvClose, isEvalEnvClose, isFinishSave,
      List.countP_cons, List.countP_nil, beq_except_finish]

theorem countP_plain_zero (p : Event → Bool)
    (hp : ∀ ev, Event.isPlain ev = true → p ev = false) (mid : List Event)
    (hmid : ∀ ev ∈ mid, Event.isPlain ev = true) : mid.countP p = 0 :=
  countP_zero_of_all p mid (fun ev hev2 => hp ev (hmid ev hev2))

theorem run_ok_shape {cfg : LoopCfg} {ε : Type} (orc : Oracle ε cfg.numEnvs)
    (fuel : Nat) (res : RunResult ε) (hrun : runTrain cfg orc fuel = some res)
    (hok : res.outcome = .ok ()) :
    res.events.countP isFinishSave = 1 ∧
    Event.saveAgent res.finalT "_finish" ∈ res.events ∧
    res.events.countP isExceptSave = 0 ∧
    res.events.countP isEnvClose = 0 ∧
    res.events.countP isEvalEnvClose = 0 := by
  obtain ⟨mid, hmid, hcase⟩ := runFrom_shape orc fuel (initState cfg) 0 0 res hrun
  rcases hcase with ⟨-, hev⟩ | ⟨e2, k2, s1, s2, hout2, -, -, -⟩
  · obtain ⟨hi1, hi2, hi3, hi4⟩ := initState_event_counts cfg
    rw [hev]
    simp only [List.countP_append]
    refine ⟨?_, ?_, ?_, ?_, ?_⟩
    · rw [hi2, countP_plain_zero isFinishSave (fun ev h => (plain_not_special h).2.1) mid hmid]
      simp [isFinishSave, List.countP_cons, List.countP_nil]
    · simp
    · rw [hi1, countP_plain_zero isExceptSave (fun ev h => (plain_not_special h).1) mid hmid]
      simp [isExceptSave, List.countP_cons, List.countP_nil, beq_finish_except]
    · rw [hi3, countP_plain_zero isEnvClose (fun ev h => (plain_not_special h).2.2.1) mid hmid]
      simp [isEnvClose, List.countP_cons, List.countP_nil]
    · rw [hi4, countP_plain_zero isEvalEnvClose (fun ev h => (plain_not_special h).2.2.2) mid hmid]
      simp [isEvalEnvClose, List.countP_cons, List.countP_nil]
  · rw [hok] at hout2
    exact absurd hout2 (by simp)

/-! ### Helper lemma: the success-threshold early exit -/

theorem run_earlyStop {cfg : LoopCfg} {ε : Type} (orc : Oracle ε cfg.numEnvs)
    (hNF : NoFail orc) (sc : Int) (hsc : cfg.successfulScore = some sc)
    (hevalt : cfg.hasEvaluator = true) (tstar : Int) (hts : tstar < cfg.steps)
    (heval : ∀ ep, orc.evalRan tstar ep = true)
    (hscore : ∀ ep, sc ≤ orc.maxScore tstar ep) :
    ∀ (j : Nat), 1 ≤ j → ∀ (fuel : Nat) (s : LoopState cfg.numEnvs) (k iters : Nat),
      j ≤ fuel → s.t + ((j * cfg.numEnvs : Nat) : Int) = tstar →
      ∃ res, runFrom cfg orc fuel s k iters = some res ∧ res.outcome = .ok () ∧
        res.finalT ≤ tstar := by
  intro j
  induction j with
  | zero => intro h; omega
  | succ j ih =>
    intro _ fuel s k iters hfuel htj
    have hcast0 : (0 : Int) ≤ (((j + 1) * cfg.numEnvs : Nat) : Int) := by positivity
    have hst : s.t < cfg.steps := by linarith [htj]
    obtain ⟨fuel', rfl⟩ : ∃ f, fuel = f + 1 := ⟨fuel - 1, by omega⟩
    obtain ⟨s', brk, hbody, ht', hhe, hbrk⟩ := iterBody_noFail orc hNF s k
    subst hbrk
    by_cases hbc : breakCond cfg orc s'.t (sumIdx s'.episodeIdx) = true
    · refine ⟨finishResult s' (iters + 1), ?_, rfl, ?_⟩
      · unfold runFrom
        rw [if_pos hst, hbody]
        simp [hbc]
      · show s'.t ≤ tstar
        rw [ht']
        have hle : cfg.numEnvs ≤ (j + 1) * cfg.numEnvs :=
          Nat.le_mul_of_pos_left _ (Nat.succ_pos j)
        have hlec : ((cfg.numEnvs : Nat) : Int) ≤ (((j + 1) * cfg.numEnvs : Nat) : Int) := by
          exact_mod_cast hle
        linarith [htj]
    · rw [Bool.not_eq_true] at hbc
      by_cases hj : 1 ≤ j
      · have hmul : (((j + 1) * cfg.numEnvs : Nat) : Int) =
            ((j * cfg.numEnvs : Nat) : Int) + (cfg.numEnvs : Int) := by push_cast; ring
        have htj' : s'.t + ((j * cfg.numEnvs : Nat) : Int) = tstar := by
          rw [ht']
          rw [hmul] at htj
          linarith
        obtain ⟨res, hrun, hok, hft⟩ := ih hj fuel' s' (k + 1) (iters + 1) (by omega) htj'
        refine ⟨res, ?_, hok, hft⟩
        unfold runFrom
        rw [if_pos hst, hbody]
        rw [hbc]
        simpa using hrun
      · have hj0 : j = 0 := by omega
        subst hj0
        have hs't : s'.t = tstar := by
          rw [ht']
          have h1 : (((0 + 1) * cfg.numEnvs : Nat) : Int) = (cfg.numEnvs : Int) := by
            push_cast; ring
          rw [h1] at htj
          linarith
        exfalso
        have : breakCond cfg orc s'.t (sumIdx s'.episodeIdx) = true := by
          unfold breakCond
          rw [hevalt, hs't, heval, hsc]
          simp [hscore (sumIdx s'.episodeIdx)]
        rw [this] at hbc
        exact absurd hbc (by simp)

/-! ### The claims -/

/-- C1: for every exception raised from within the loop body (agent action
selection, `env.step`, agent observe, or a step hook), `save_agent` is
invoked exactly once with suffix `_except` and the then-current step
counter, `env.close()` is invoked, `evaluator.env.close()` is invoked
exactly when an evaluator is present, no `_finish` save happens, and the
caller-visible outcome is exactly the exception raised by the failing body
call — re-raised unchanged, never swallowed: whenever the body raises `e`
at loop entry, the run returns with outcome `e`, the `_except` save at the
at-raise step counter, and the two closes. -/
theorem c1_exception_cleanup (cfg : LoopCfg) {ε : Type} (orc : Oracle ε cfg.numEnvs) :
    (∀ (fuel : Nat) (res : RunResult ε) (e : ε),
        runTrain cfg orc fuel = some res → res.outcome = Except.error e →
        res.events.countP isExceptSave = 1 ∧
        Event.saveAgent res.finalT "_except" ∈ res.events ∧
        res.events.countP isEnvClose = 1 ∧
        res.events.countP isEvalEnvClose = (if cfg.hasEvaluator then 1 else 0) ∧
        res.events.countP isFinishSave = 0 ∧
        ∃ k s1 s2, iterBody cfg orc s1 k = Except.error (e, s2) ∧ res.finalT = s2.t) ∧
    (∀ (fuel : Nat) (s : LoopState cfg.numEnvs) (k iters : Nat) (e : ε)
        (s2 : LoopState cfg.numEnvs),
        s.t < cfg.steps → iterBody cfg orc s k = Except.error (e, s2) →
        runFrom cfg orc (fuel + 1) s k iters =
          some { events := s2.events ++ exceptEvents cfg s2.t, finalT := s2.t,
                 iters := iters + 1, outcome := Except.error e }) := by
  constructor
  · intro fuel res e hrun hout
    obtain ⟨mid, hmid, hcase⟩ := runFrom_shape orc fuel (initState cfg) 0 0 res hrun
    rcases hcase with ⟨hok, -⟩ | ⟨e2, k2, s1, s2, hout2, hb, hft, hev⟩
    · rw [hout] at hok
      exact absurd hok (by simp)
    · have he : e2 = e := by
        have h3 : (Except.error e : Except ε Unit) = Except.error e2 := hout ▸ hout2
        injection h3 with h4
        exact h4.symm
      subst he
      obtain ⟨hc1, hc2, hc3, hc4, hc5⟩ := exceptEvents_counts cfg res.finalT
      obtain ⟨hi1, hi2, hi3, hi4⟩ := initState_event_counts cfg
      rw [hev]
      simp only [List.countP_append]
      refine ⟨?_, ?_, ?_, ?_, ?_, ⟨k2, s1, s2, hb, hft⟩⟩
      · rw [hi1, countP_plain_zero isExceptSave (fun ev h => (plain_not_special h).1) mid hmid,
          hc1]
      · exact List.mem_append.mpr (Or.inr hc5)
      · rw [hi3, countP_plain_zero isEnvClose (fun ev h => (plain_not_special h).2.2.1) mid hmid,
          hc2]
      · rw [hi4, countP_plain_zero isEvalEnvClose (fun ev h => (plain_not_special h).2.2.2) mid
          hmid, hc3]
        simp
      · rw [hi2, countP_plain_zero isFinishSave (fun ev h => (plain_not_special h).2.1) mid hmid,
          hc4]
  · intro fuel s k iters e s2 hlt hbody
    unfold runFrom
    rw [if_pos hlt, hbody]

theorem c1_witness :
    (runTrain cfgA orcA 5 = some resA ∧ resA.outcome = Except.error 7 ∧
     (resA.events.countP isExceptSave = 1 ∧
      Event.saveAgent resA.finalT "_except" ∈ resA.events ∧
      resA.events.countP isEnvClose = 1 ∧
      resA.events.countP isEvalEnvClose = (if cfgA.hasEvaluator then 1 else 0) ∧
      resA.events.countP isFinishSave = 0 ∧
      ∃ k s1 s2, iterBody cfgA orcA s1 k = Except.error (7, s2) ∧ resA.finalT = s2.t)) ∧
    ((initState cfgA).t < cfgA.steps ∧
     iterBody cfgA orcA (initState cfgA) 0 = Except.error (7, initState cfgA) ∧
     runFrom cfgA orcA 1 (initState cfgA) 0 0 =
       some { events := (initState cfgA).events ++ exceptEvents cfgA (initState cfgA).t,
              finalT := (initState cfgA).t, iters := 1, outcome := Except.error 7 }) :=
  ⟨⟨rfl, rfl, (c1_exception_cleanup cfgA orcA).1 5 resA 7 rfl rfl⟩,
   ⟨by decide, rfl,
    (c1_exception_cleanup cfgA orcA).2 0 (initState cfgA) 0 0 7 (initState cfgA)
      (by decide) rfl⟩⟩

/-- C2: every run that terminates normally (no exception) saves the agent
exactly once with suffix `_finish` and never with `_except`; and when a
`successful_score` is configured and the evaluator runs with
`max_score` at or above it at a post-iteration step value strictly below
the budget, the run stops early (final step counter strictly below
`steps`) and the checkpoint suffix is still `_finish`. -/
theorem c2_finish_save (cfg : LoopCfg) {ε : Type} (orc : Oracle ε cfg.numEnvs) :
    (∀ (fuel : Nat) (res : RunResult ε), runTrain cfg orc fuel = some res →
        res.outcome = .ok () →
        res.events.countP isFinishSave = 1 ∧
        Event.saveAgent res.finalT "_finish" ∈ res.events ∧
        res.events.countP isExceptSave = 0) ∧
    (∀ (sc : Int) (m fuel : Nat), NoFail orc → cfg.successfulScore = some sc →
        cfg.hasEvaluator = true → 1 ≤ m → m ≤ fuel →
        cfg.stepOffset + ((m * cfg.numEnvs : Nat) : Int) < cfg.steps →
        (∀ ep, orc.evalRan (cfg.stepOffset + ((m * cfg.numEnvs : Nat) : Int)) ep = true) →
        (∀ ep, sc ≤ orc.maxScore (cfg.stepOffset + ((m * cfg.numEnvs : Nat) : Int)) ep) →
        ∃ res, runTrain cfg orc fuel = some res ∧ res.outcome = .ok () ∧
          res.finalT < cfg.steps ∧
          res.events.countP isFinishSave = 1 ∧
          Event.saveAgent res.finalT "_finish" ∈ res.events ∧
          res.events.countP isExceptSave = 0) := by
  constructor
  · intro fuel res hrun hok
    obtain ⟨h1, h2, h3, -, -⟩ := run_ok_shape orc fuel res hrun hok
    exact ⟨h1, h2, h3⟩
  · intro sc m fuel hNF hsc hevalt hm hfuel hlt heval hscore
    obtain ⟨res, hrun, hok, hft⟩ := run_earlyStop orc hNF sc hsc hevalt
      (cfg.stepOffset + ((m * cfg.numEnvs : Nat) : Int)) hlt heval hscore m hm fuel
      (initState cfg) 0 0 hfuel rfl
    have hrun2 : runTrain cfg orc fuel = some res := hrun
    obtain ⟨h1, h2, h3, -, -⟩ := run_ok_shape orc fuel res hrun2 hok
    exact ⟨res, hrun2, hok, lt_of_le_of_lt hft hlt, h1, h2, h3⟩

theorem c2_witness :
    (runTrain cfgB orcB 1 = some resB ∧ resB.outcome = Except.ok () ∧
      (resB.events.countP isFinishSave = 1 ∧
       Event.saveAgent resB.finalT "_finish" ∈ resB.events ∧
       resB.events.countP isExceptSave = 0)) ∧
    (∃ res, runTrain cfgB orcB 1 = some res ∧ res.outcome = Except.ok () ∧
      res.finalT < cfgB.steps ∧
      res.events.countP isFinishSave = 1 ∧
      Event.saveAgent res.finalT "_finish" ∈ res.events ∧
      res.events.countP isExceptSave = 0) :=
  ⟨⟨rfl, rfl, (c2_finish_save cfgB orcB).1 1 resB rfl rfl⟩,
   (c2_finish_save cfgB orcB).2 5 1 1
     ⟨fun _ => rfl, fun _ => ⟨(fun _ => 0, fun _ => false), rfl⟩, fun _ => rfl, fun _ _ => rfl⟩
     rfl rfl (by omega) (by omega) (by decide) (fun _ => rfl)
     (fun _ => by show (5 : Int) ≤ 7; decide)⟩

/-- C3: for every `numEnvs ≥ 1`, every `step_offset`, and every step
budget that is a multiple `m * numEnvs` of `numEnvs`, a run without
failures and without an early-success exit performs exactly `m` batch
iterations and ends with the global step counter exactly at
`step_offset + m * numEnvs`. -/
theorem c3_step_budget (cfg : LoopCfg) {ε : Type} (orc : Oracle ε cfg.numEnvs)
    (hN : 1 ≤ cfg.numEnvs) (hNF : NoFail orc) (hNE : NoEarlyExit cfg orc)
    (m fuel : Nat) (hfuel : m ≤ fuel)
    (hsteps : cfg.steps = cfg.stepOffset + ((m * cfg.numEnvs : Nat) : Int)) :
    ∃ res, runTrain cfg orc fuel = some res ∧ res.outcome = .ok () ∧
      res.iters = m ∧ res.finalT = cfg.stepOffset + ((m * cfg.numEnvs : Nat) : Int) := by
  have hub : cfg.steps ≤ (initState cfg).t + ((m * cfg.numEnvs : Nat) : Int) := le_of_eq hsteps
  have hltj : ∀ j : Nat, j < m →
      (initState cfg).t + ((j * cfg.numEnvs : Nat) : Int) < cfg.steps := by
    intro j hj
    show cfg.stepOffset + _ < _
    rw [hsteps]
    have hjm : j * cfg.numEnvs < m * cfg.numEnvs :=
      Nat.mul_lt_mul_of_lt_of_le hj (le_refl cfg.numEnvs) hN
    have hjc : ((j * cfg.numEnvs : Nat) : Int) < ((m * cfg.numEnvs : Nat) : Int) := by
      exact_mod_cast hjm
    linarith
  obtain ⟨res, hrun, hok, hit, hft, -⟩ :=
    run_noFail_exact orc hNF hNE m fuel (initState cfg) 0 0 hfuel hub hltj
  exact ⟨res, hrun, hok, by simpa using hit, hft⟩

theorem c3_witness :
    ∃ res, runTrain cfgC orcC 3 = some res ∧ res.outcome = Except.ok () ∧
      res.iters = 3 ∧ res.finalT = cfgC.stepOffset + ((3 * cfgC.numEnvs : Nat) : Int) :=
  c3_step_budget cfgC orcC (by decide)
    ⟨fun _ => rfl, fun _ => ⟨(fun _ => 1, fun _ => false), rfl⟩, fun _ => rfl, fun _ _ => rfl⟩
    (fun _ _ => rfl) 3 3 (by omega) (by decide)

/-- C10: a run that terminates normally (budget exhaustion or early
success) never invokes `env.close()` nor `evaluator.env.close()`: the
loop releases environment resources only on the exception path. -/
theorem c10_no_close_on_normal_exit (cfg : LoopCfg) {ε : Type} (orc : Oracle ε cfg.numEnvs)
    (fuel : Nat) (res : RunResult ε) (hrun : runTrain cfg orc fuel = some res)
    (hok : res.outcome = .ok ()) :
    res.events.countP isEnvClose = 0 ∧ res.events.countP isEvalEnvClose = 0 := by
  obtain ⟨-, -, -, h4, h5⟩ := run_ok_shape orc fuel res hrun hok
  exact ⟨h4, h5⟩

theorem c10_witness :
    runTrain cfgC orcC 3 = some resC ∧ resC.outcome = Except.ok () ∧
    (resC.events.countP isEnvClose = 0 ∧ resC.events.countP isEvalEnvClose = 0) :=
  ⟨rfl, rfl, c10_no_close_on_normal_exit cfgC orcC 3 resC rfl rfl⟩

/-- C4 counterexample: with `numEnvs = 2` and a step budget of
`steps - step_offset = 1` (not a multiple of `numEnvs`), a normal run
invokes the single registered hook twice, not once — so "each hook is
invoked exactly S times where S is the step budget" fails as stated. -/
theorem c4_counterexample :
    runTrain cfgC4 orcC 1 = some resC4 ∧ resC4.outcome = Except.ok () ∧
    cfgC4.steps - cfgC4.stepOffset = 1 ∧ cfgC4.numHooks = 1 ∧
    (hookSteps 0 resC4.events).length = 2 :=
  ⟨rfl, rfl, rfl, rfl, rfl⟩

/-- C4 (amended): in every successful batch iteration the step counter
advances by exactly `numEnvs` and the hooks fire `numEnvs` times — once
per unit increment, in registration order, with the then-current counter
value (the `unitsTrace` equation).  Across a full run without failures or
early exit whose budget is the multiple `m * numEnvs` of `numEnvs`, the
hook trace is exactly the per-unit trace from `step_offset`, so each
registered hook is invoked exactly `S = m * numEnvs` times with strictly
increasing step arguments `step_offset + 1, ..., step_offset + S`.  (When
`S` is not a multiple of `numEnvs` the count is `numEnvs * ceil(S /
numEnvs)` instead — see the counterexample.) -/
theorem c4_hook_cadence (cfg : LoopCfg) {ε : Type} (orc : Oracle ε cfg.numEnvs)
    (hN : 1 ≤ cfg.numEnvs) (hNF : NoFail orc) (hNE : NoEarlyExit cfg orc)
    (m fuel : Nat) (hfuel : m ≤ fuel)
    (hsteps : cfg.steps = cfg.stepOffset + ((m * cfg.numEnvs : Nat) : Int)) :
    (∀ (s : LoopState cfg.numEnvs) (k : Nat) (s' : LoopState cfg.numEnvs) (brk : Bool),
        iterBody cfg orc s k = .ok (s', brk) →
        s'.t = s.t + (cfg.numEnvs : Int) ∧
        hookEvents s'.events = hookEvents s.events ++
          unitsTrace cfg.numHooks s.t cfg.numEnvs) ∧
    (∃ res, runTrain cfg orc fuel = some res ∧ res.outcome = .ok () ∧
      hookEvents res.events = unitsTrace cfg.numHooks cfg.stepOffset (m * cfg.numEnvs) ∧
      ∀ i, i < cfg.numHooks →
        hookSteps i res.events =
          (List.range (m * cfg.numEnvs)).map (fun (j : Nat) => cfg.stepOffset + (j : Int) + 1) ∧
        (hookSteps i res.events).length = m * cfg.numEnvs ∧
        List.Pairwise (· < ·) (hookSteps i res.events)) := by
  constructor
  · intro s k s' brk hbody
    obtain ⟨s'', brk', hbody', ht'', hhe'', -⟩ := iterBody_noFail orc hNF s k
    rw [hbody] at hbody'
    injection hbody' with h1
    injection h1 with h2 h3
    subst h2
    exact ⟨ht'', hhe''⟩
  · have hub : cfg.steps ≤ (initState cfg).t + ((m * cfg.numEnvs : Nat) : Int) :=
      le_of_eq hsteps
    have hltj : ∀ j : Nat, j < m →
        (initState cfg).t + ((j * cfg.numEnvs : Nat) : Int) < cfg.steps := by
      intro j hj
      show cfg.stepOffset + _ < _
      rw [hsteps]
      have hjm : j * cfg.numEnvs < m * cfg.numEnvs :=
        Nat.mul_lt_mul_of_lt_of_le hj (le_refl cfg.numEnvs) hN
      have hjc : ((j * cfg.numEnvs : Nat) : Int) < ((m * cfg.numEnvs : Nat) : Int) := by
        exact_mod_cast hjm
      linarith
    obtain ⟨res, hrun, hok, hit, hft, hhooks⟩ :=
      run_noFail_exact orc hNF hNE m fuel (initState cfg) 0 0 hfuel hub hltj
    have hinit : hookEvents (initState cfg).events = [] := by
      simp [initState, hookEvents, isHookEvent]
    have hhe : hookEvents res.events =
        unitsTrace cfg.numHooks cfg.stepOffset (m * cfg.numEnvs) := by
      rw [hhooks, hinit, List.nil_append]
      rfl
    refine ⟨res, hrun, hok, hhe, ?_⟩
    intro i hi
    have hsi : hookSteps i res.events =
        (List.range (m * cfg.numEnvs)).map (fun (j : Nat) => cfg.stepOffset + (j : Int) + 1) := by
      rw [← hookSteps_hookEvents i res.events, hhe,
        hookSteps_unitsTrace cfg.numHooks i hi (m * cfg.numEnvs) cfg.stepOffset]
    refine ⟨hsi, ?_, ?_⟩
    · rw [hsi]; simp
    · rw [hsi]; exact pairwise_lt_shift cfg.stepOffset (m * cfg.numEnvs)

theorem c4_witness :
    (iterBody cfgC orcC (initState cfgC) 0 = Except.ok (sC', brkC) ∧
     (sC'.t = (initState cfgC).t + (cfgC.numEnvs : Int) ∧
      hookEvents sC'.events = hookEvents (initState cfgC).events ++
        unitsTrace cfgC.numHooks (initState cfgC).t cfgC.numEnvs)) ∧
    (∃ res, runTrain cfgC orcC 3 = some res ∧ res.outcome = Except.ok () ∧
      hookEvents res.events = unitsTrace cfgC.numHooks cfgC.stepOffset (3 * cfgC.numEnvs) ∧
      ∀ i, i < cfgC.numHooks →
        hookSteps i res.events =
          (List.range (3 * cfgC.numEnvs)).map (fun (j : Nat) => cfgC.stepOffset + (j : Int) + 1) ∧
        (hookSteps i res.events).length = 3 * cfgC.numEnvs ∧
        List.Pairwise (· < ·) (hookSteps i res.events)) :=
  ⟨⟨rfl,
    (c4_hook_cadence cfgC orcC (by decide)
      ⟨fun _ => rfl, fun _ => ⟨(fun _ => 1, fun _ => false), rfl⟩, fun _ => rfl, fun _ _ => rfl⟩
      (fun _ _ => rfl) 3 3 (by omega) (by decide)).1 (initState cfgC) 0 sC' brkC rfl⟩,
   (c4_hook_cadence cfgC orcC (by decide)
      ⟨fun _ => rfl, fun _ => ⟨(fun _ => 1, fun _ => false), rfl⟩, fun _ => rfl, fun _ _ => rfl⟩
      (fun _ _ => rfl) 3 3 (by omega) (by decide)).2⟩

/-- C9: when the remaining budget `S = steps - step_offset` is positive
and not a multiple of `numEnvs`, a run without failures or early exit
ends with the step counter strictly beyond `steps`: it is the least value
`≥ steps` congruent to `step_offset` modulo `numEnvs` (strictly between
`steps` and `steps + numEnvs`, congruent to the offset), and during the
final iteration every registered hook receives a step argument exceeding
`steps` (in particular the final counter value itself). -/
theorem c9_budget_overshoot (cfg : LoopCfg) {ε : Type} (orc : Oracle ε cfg.numEnvs)
    (hN : 1 ≤ cfg.numEnvs) (hNF : NoFail orc) (hNE : NoEarlyExit cfg orc)
    (S : Nat) (hS1 : 1 ≤ S) (hndvd : ¬ cfg.numEnvs ∣ S)
    (hsteps : cfg.steps = cfg.stepOffset + (S : Int))
    (fuel : Nat) (hfuel : (S + cfg.numEnvs - 1) / cfg.numEnvs ≤ fuel) :
    ∃ res, runTrain cfg orc fuel = some res ∧ res.outcome = .ok () ∧
      cfg.steps < res.finalT ∧ res.finalT < cfg.steps + (cfg.numEnvs : Int) ∧
      (res.finalT - cfg.stepOffset) % (cfg.numEnvs : Int) = 0 ∧
      ∀ i, i < cfg.numHooks → Event.hookCall i res.finalT ∈ res.events := by
  obtain ⟨hm1, hmge, hmlt⟩ := ceilDiv_facts S cfg.numEnvs hN hS1
  set m := (S + cfg.numEnvs - 1) / cfg.numEnvs with hm
  have hSlt : S < m * cfg.numEnvs := by
    rcases Nat.lt_or_ge S (m * cfg.numEnvs) with h | h
    · exact h
    · exfalso
      apply hndvd
      have hEq : S = m * cfg.numEnvs := le_antisymm hmge h
      exact ⟨m, by rw [hEq, Nat.mul_comm]⟩
  have hub : cfg.steps ≤ (initState cfg).t + ((m * cfg.numEnvs : Nat) : Int) := by
    show cfg.steps ≤ cfg.stepOffset + _
    rw [hsteps]
    have h1 : (S : Int) ≤ ((m * cfg.numEnvs : Nat) : Int) := by exact_mod_cast hmge
    linarith
  have hltj : ∀ j : Nat, j < m →
      (initState cfg).t + ((j * cfg.numEnvs : Nat) : Int) < cfg.steps := by
    intro j hj
    show cfg.stepOffset + _ < _
    rw [hsteps]
    have hj1 : j + 1 ≤ m := hj
    have hle : (j + 1) * cfg.numEnvs ≤ m * cfg.numEnvs := Nat.mul_le_mul_right _ hj1
    have hsum : j * cfg.numEnvs + cfg.numEnvs = (j + 1) * cfg.numEnvs := by ring
    have hjS : j * cfg.numEnvs < S := by
      have h2 : j * cfg.numEnvs + cfg.numEnvs ≤ m * cfg.numEnvs := by rw [hsum]; exact hle
      have h3 := lt_of_le_of_lt h2 hmlt
      exact lt_of_add_lt_add_right h3
    have hjc : ((j * cfg.numEnvs : Nat) : Int) < (S : Int) := by exact_mod_cast hjS
    linarith
  obtain ⟨res, hrun, hok, hit, hft, hhooks⟩ :=
    run_noFail_exact orc hNF hNE m fuel (initState cfg) 0 0 hfuel hub hltj
  have hftv : res.finalT = cfg.stepOffset + ((m * cfg.numEnvs : Nat) : Int) := hft
  refine ⟨res, hrun, hok, ?_, ?_, ?_, ?_⟩
  · rw [hftv, hsteps]
    have h1 : (S : Int) < ((m * cfg.numEnvs : Nat) : Int) := by exact_mod_cast hSlt
    linarith
  · rw [hftv, hsteps]
    have h1 : ((m * cfg.numEnvs : Nat) : Int) < (S : Int) + (cfg.numEnvs : Int) := by
      exact_mod_cast hmlt
    linarith
  · rw [hftv]
    have h1 : cfg.stepOffset + ((m * cfg.numEnvs : Nat) : Int) - cfg.stepOffset =
        (m : Int) * (cfg.numEnvs : Int) := by push_cast; ring
    rw [h1]
    exact Int.mul_emod_left _ _
  · intro i hi
    have hinit : hookEvents (initState cfg).events = [] := by
      simp [initState, hookEvents, isHookEvent]
    have hmN1 : 1 ≤ m * cfg.numEnvs := Nat.mul_pos hm1 hN
    have hmem := hookCall_mem_unitsTrace cfg.numHooks i hi (m * cfg.numEnvs)
      (initState cfg).t hmN1
    have hmem2 : Event.hookCall i res.finalT ∈ hookEvents res.events := by
      rw [hhooks, hinit, List.nil_append, hft]
      exact hmem
    exact List.mem_of_mem_filter hmem2

theorem c9_witness :
    ∃ res, runTrain cfgE orcC 3 = some res ∧ res.outcome = Except.ok () ∧
      cfgE.steps < res.finalT ∧ res.finalT < cfgE.steps + (cfgE.numEnvs : Int) ∧
      (res.finalT - cfgE.stepOffset) % (cfgE.numEnvs : Int) = 0 ∧
      ∀ i, i < cfgE.numHooks → Event.hookCall i res.finalT ∈ res.events :=
  c9_budget_overshoot cfgE orcC (by decide)
    ⟨fun _ => rfl, fun _ => ⟨(fun _ => 1, fun _ => false), rfl⟩, fun _ => rfl, fun _ _ => rfl⟩
    (fun _ _ => rfl) 5 (by omega) (by decide) (by decide) 3 (by decide)

/-- C5: in every iteration the truncation mask `resets[i]` is true iff
`max_episode_len` is set and slot `i`'s (post-increment) step count equals
it exactly (strict equality, not `≥`); and whenever it fires, that slot's
step count is zero at the start of the next iteration, so truncation
cannot re-fire without an intervening reset of the count. -/
theorem c5_truncation_mask (cfg : LoopCfg) {ε : Type} (orc : Oracle ε cfg.numEnvs)
    (s : LoopState cfg.numEnvs) (k : Nat) (rs : Fin cfg.numEnvs → Int)
    (dones : Fin cfg.numEnvs → Bool) (hstep : orc.stepRes k = .ok (rs, dones))
    (s' : LoopState cfg.numEnvs) (brk : Bool)
    (hbody : iterBody cfg orc s k = .ok (s', brk)) :
    (∀ i, resetsMask cfg.maxEpisodeLen (lenAfter s) i = true ↔
        ∃ L, cfg.maxEpisodeLen = some L ∧ lenAfter s i = L) ∧
    (∀ i, resetsMask cfg.maxEpisodeLen (lenAfter s) i = true → s'.episodeLen i = 0) := by
  obtain ⟨-, -, -, hlen, -, -, -⟩ := iterBody_ok_inv orc s k rs dones hstep s' brk hbody
  constructor
  · intro i
    cases hml : cfg.maxEpisodeLen with
    | none => simp [resetsMask, hml]
    | some L =>
      simp only [resetsMask, hml, beq_iff_eq]
      constructor
      · intro h
        exact ⟨L, rfl, h⟩
      · rintro ⟨L2, hL2, h⟩
        injection hL2 with hLL
        rw [h, hLL]
  · intro i hres
    rw [hlen]
    have hend : endMask cfg.maxEpisodeLen (lenAfter s) dones i = true := by
      unfold endMask
      rw [hres]
      simp
    simp [hend]

theorem c5_witness :
    (orcD.stepRes 0 = Except.ok (rsD, donesD) ∧
     iterBody cfgD orcD sD 0 = Except.ok (sD', brkD)) ∧
    ((∀ i, resetsMask cfgD.maxEpisodeLen (lenAfter sD) i = true ↔
        ∃ L, cfgD.maxEpisodeLen = some L ∧ lenAfter sD i = L) ∧
     (∀ i, resetsMask cfgD.maxEpisodeLen (lenAfter sD) i = true → sD'.episodeLen i = 0)) :=
  ⟨⟨rfl, rfl⟩, c5_truncation_mask cfgD orcD sD 0 rsD donesD rfl sD' brkD rfl⟩

/-- C6: for every slot whose episode ends this iteration (natural done or
truncation) the episode index increases by exactly one, the accumulated
return is among the values pushed into the return window (whose update is
exactly `extend` of the ended slots' returns in slot order), and both the
return and step count are zero afterwards; slots that did not end keep
their accumulated return, incremented step count, and episode index. -/
theorem c6_episode_finalization (cfg : LoopCfg) {ε : Type} (orc : Oracle ε cfg.numEnvs)
    (s : LoopState cfg.numEnvs) (k : Nat) (rs : Fin cfg.numEnvs → Int)
    (dones : Fin cfg.numEnvs → Bool) (hstep : orc.stepRes k = .ok (rs, dones))
    (s' : LoopState cfg.numEnvs) (brk : Bool)
    (hbody : iterBody cfg orc s k = .ok (s', brk)) :
    s'.recentReturns = dequeExtend cfg.returnWindowSize s.recentReturns
      (archivedList cfg.maxEpisodeLen s rs dones) ∧
    (∀ i, endMask cfg.maxEpisodeLen (lenAfter s) dones i = true →
        s'.episodeIdx i = s.episodeIdx i + 1 ∧ s'.episodeR i = 0 ∧ s'.episodeLen i = 0 ∧
        rAfter s rs i ∈ archivedList cfg.maxEpisodeLen s rs dones) ∧
    (∀ i, endMask cfg.maxEpisodeLen (lenAfter s) dones i = false →
        s'.episodeIdx i = s.episodeIdx i ∧ s'.episodeR i = rAfter s rs i ∧
        s'.episodeLen i = lenAfter s i) := by
  obtain ⟨-, hr, hidx, hlen, hrec, -, -⟩ := iterBody_ok_inv orc s k rs dones hstep s' brk hbody
  refine ⟨hrec, ?_, ?_⟩
  · intro i hi
    refine ⟨?_, ?_, ?_, ?_⟩
    · rw [hidx]; simp [hi]
    · rw [hr]; simp [hi]
    · rw [hlen]; simp [hi]
    · unfold archivedList
      exact List.mem_map.mpr ⟨i, List.mem_filter.mpr ⟨List.mem_finRange i, by simp [hi]⟩, rfl⟩
  · intro i hi
    refine ⟨?_, ?_, ?_⟩
    · rw [hidx]; simp [hi]
    · rw [hr]; simp [hi]
    · rw [hlen]; simp [hi]

theorem c6_witness :
    (orcD.stepRes 0 = Except.ok (rsD, donesD) ∧
     iterBody cfgD orcD sD 0 = Except.ok (sD', brkD)) ∧
    (sD'.recentReturns = dequeExtend cfgD.returnWindowSize sD.recentReturns
       (archivedList cfgD.maxEpisodeLen sD rsD donesD) ∧
     (∀ i, endMask cfgD.maxEpisodeLen (lenAfter sD) donesD i = true →
         sD'.episodeIdx i = sD.episodeIdx i + 1 ∧ sD'.episodeR i = 0 ∧ sD'.episodeLen i = 0 ∧
         rAfter sD rsD i ∈ archivedList cfgD.maxEpisodeLen sD rsD donesD) ∧
     (∀ i, endMask cfgD.maxEpisodeLen (lenAfter sD) donesD i = false →
         sD'.episodeIdx i = sD.episodeIdx i ∧ sD'.episodeR i = rAfter sD rsD i ∧
         sD'.episodeLen i = lenAfter sD i)) :=
  ⟨⟨rfl, rfl⟩, c6_episode_finalization cfgD orcD sD 0 rsD donesD rfl sD' brkD rfl⟩

/-- C8: the mid-loop `env.reset` of every iteration is called with exactly
`not end` as its mask: the recorded reset call's mask list is the
pointwise negation of the end mask, so precisely the slots whose episodes
ended are restarted while the others are kept. -/
theorem c8_masked_reset (cfg : LoopCfg) {ε : Type} (orc : Oracle ε cfg.numEnvs)
    (s : LoopState cfg.numEnvs) (k : Nat) (rs : Fin cfg.numEnvs → Int)
    (dones : Fin cfg.numEnvs → Bool) (hstep : orc.stepRes k = .ok (rs, dones))
    (s' : LoopState cfg.numEnvs) (brk : Bool)
    (hbody : iterBody cfg orc s k = .ok (s', brk)) :
    s'.events = s.events ++
      [Event.resetCall
        (List.ofFn (fun i => !(endMask cfg.maxEpisodeLen (lenAfter s) dones i)))] ++
      unitsTrace cfg.numHooks s.t cfg.numEnvs ∧
    ∀ i : Fin cfg.numEnvs,
      (List.ofFn (fun j => !(endMask cfg.maxEpisodeLen (lenAfter s) dones j))).get
          (Fin.cast (List.length_ofFn _).symm i) =
        !(endMask cfg.maxEpisodeLen (lenAfter s) dones i) := by
  obtain ⟨-, -, -, -, -, hev, -⟩ := iterBody_ok_inv orc s k rs dones hstep s' brk hbody
  refine ⟨hev, ?_⟩
  intro i
  simp [List.get_ofFn]

theorem c8_witness :
    (orcD.stepRes 0 = Except.ok (rsD, donesD) ∧
     iterBody cfgD orcD sD 0 = Except.ok (sD', brkD)) ∧
    (sD'.events = sD.events ++
       [Event.resetCall
         (List.ofFn (fun i => !(endMask cfgD.maxEpisodeLen (lenAfter sD) donesD i)))] ++
       unitsTrace cfgD.numHooks sD.t cfgD.numEnvs ∧
     ∀ i : Fin cfgD.numEnvs,
       (List.ofFn (fun j => !(endMask cfgD.maxEpisodeLen (lenAfter sD) donesD j))).get
           (Fin.cast (List.length_ofFn _).symm i) =
         !(endMask cfgD.maxEpisodeLen (lenAfter sD) donesD i)) :=
  ⟨⟨rfl, rfl⟩, c8_masked_reset cfgD orcD sD 0 rsD donesD rfl sD' brkD rfl⟩

/-- C7: the return window never holds more than `return_window_size`
entries — pushes keep the bound, the initial window satisfies it, and
every loop body (on both its success and exception outcomes) preserves
it; pushing into a full window evicts the oldest entry (FIFO); and with
window size 3 pushing 1,2,3,4 leaves exactly 2,3,4 in order. -/
theorem c7_return_window (cfg : LoopCfg) {ε : Type} (orc : Oracle ε cfg.numEnvs) :
    (∀ (q : List Int) (x : Int), q.length ≤ cfg.returnWindowSize →
        (dequePush cfg.returnWindowSize q x).length ≤ cfg.returnWindowSize) ∧
    (∀ (q xs : List Int), q.length ≤ cfg.returnWindowSize →
        (dequeExtend cfg.returnWindowSize q xs).length ≤ cfg.returnWindowSize) ∧
    (∀ (q : List Int) (x : Int), q.length = cfg.returnWindowSize →
        1 ≤ cfg.returnWindowSize →
        dequePush cfg.returnWindowSize q x = q.tail ++ [x]) ∧
    (initState cfg).recentReturns.length ≤ cfg.returnWindowSize ∧
    (∀ (s : LoopState cfg.numEnvs) (k : Nat),
        s.recentReturns.length ≤ cfg.returnWindowSize →
        (∀ (s' : LoopState cfg.numEnvs) (brk : Bool),
            iterBody cfg orc s k = .ok (s', brk) →
            s'.recentReturns.length ≤ cfg.returnWindowSize) ∧
        (∀ (e : ε) (s2 : LoopState cfg.numEnvs),
            iterBody cfg orc s k = .error (e, s2) →
            s2.recentReturns.length ≤ cfg.returnWindowSize)) ∧
    dequeExtend 3 [] [1, 2, 3, 4] = [2, 3, 4] := by
  refine ⟨fun q x h => dequePush_length_le _ q x h,
    fun q xs h => dequeExtend_length_le _ xs q h,
    fun q x hq hW => dequePush_full _ q x hq hW,
    by simp [initState],
    ?_, by rfl⟩
  intro s k hlen
  constructor
  · intro s' brk hbody
    obtain ⟨xs, hxs⟩ := iterBody_recent_ok orc s k s' brk hbody
    rw [hxs]
    exact dequeExtend_length_le _ xs _ hlen
  · intro e s2 hbody
    rcases iterBody_recent_error orc s k e s2 hbody with h | ⟨xs, hxs⟩
    · rw [h]; exact hlen
    · rw [hxs]; exact dequeExtend_length_le _ xs _ hlen

theorem c7_witness :
    ((dequePush cfgD.returnWindowSize [1, 2] 5).length ≤ cfgD.returnWindowSize) ∧
    ((dequeExtend cfgD.returnWindowSize [] [1, 2, 3]).length ≤ cfgD.returnWindowSize) ∧
    (dequePush cfgD.returnWindowSize [8, 9] 1 = [8, 9].tail ++ [1]) ∧
    ((initState cfgD).recentReturns.length ≤ cfgD.returnWindowSize) ∧
    ((∀ (s' : LoopState cfgD.numEnvs) (brk : Bool),
        iterBody cfgD orcD sD 0 = .ok (s', brk) →
        s'.recentReturns.length ≤ cfgD.returnWindowSize) ∧
     (∀ (e : Nat) (s2 : LoopState cfgD.numEnvs),
        iterBody cfgD orcD sD 0 = .error (e, s2) →
        s2.recentReturns.length ≤ cfgD.returnWindowSize)) ∧
    dequeExtend 3 [] [1, 2, 3, 4] = [2, 3, 4] :=
  ⟨(c7_return_window cfgD orcD).1 [1, 2] 5 (by decide),
   (c7_return_window cfgD orcD).2.1 [] [1, 2, 3] (by decide),
   (c7_return_window cfgD orcD).2.2.1 [8, 9] 1 (by decide) (by decide),
   (c7_return_window cfgD orcD).2.2.2.1,
   (c7_return_window cfgD orcD).2.2.2.2.1 sD 0 (by decide),
   (c7_return_window cfgD orcD).2.2.2.2.2⟩

end TrainAgentBatch
